import Mathlib

/-!
Shallow embedding of the core logic of the video-transcription / MCQ backend:
the transcript segment merger (`TranscriptionService.segmentTranscript` and
`TranscriptionService.ensureMinimumSegmentLength`) and the quiz assembly and
grading logic (`QuestionController.generateQuiz`, `QuestionController.submitQuiz`,
`QuestionController.shuffleArray`).

Times are embedded as rationals (the source uses JS numbers), strings as Lean
strings, and the JS `||` defaulting on possibly-missing numeric fields is made
explicit.  Randomness (`Math.random`) is modelled by an oracle function whose
draw at loop index `i` is clamped into `[0, i]`, exactly the range of
`Math.floor(Math.random() * (i + 1))`.
-/

set_option maxRecDepth 100000

namespace MCQ
/-- The space character, used by the word-count split `text.split(' ')`. -/
def spaceChar : Char := Char.ofNat 32

/-- Embedding of JS `String.prototype.trim`: drop whitespace from both ends.
The whitespace set is the ASCII one (space, tab, CR, LF); JS also trims some
exotic Unicode spaces, which never occur in the inputs considered here. -/
def jsTrim (s : String) : String :=
  String.mk (((s.data.dropWhile Char.isWhitespace).reverse.dropWhile Char.isWhitespace).reverse)

/-- Embedding of JS `text.split(' ').length` from `ensureMinimumSegmentLength`:
splitting a string on a single-character separator is exactly splitting its
character list on that character, keeping empty tokens. -/
def wordCount (s : String) : Nat := (s.data.splitOn spaceChar).length

/-- JS `value || default` on an optional numeric field: both `undefined` and
`0` are falsy, so both fall back to the default. -/
def jsNumOr (v : Option ℚ) (d : ℚ) : ℚ :=
  match v with
  | none => d
  | some x => if x = 0 then d else x

/-- A raw Whisper fragment as consumed by `segmentTranscript`: the `start`,
`end` and `text` fields of a JSON segment object, each possibly absent.
The `end` field is called `stop` here because `end` is a Lean keyword. -/
structure RawFragment where
  start : Option ℚ
  stop : Option ℚ
  text : Option String
deriving DecidableEq

/-- `const startTime = segment.start || 0` in `segmentTranscript`. -/
def fragStart (f : RawFragment) : ℚ := jsNumOr f.start 0

/-- `const endTime = segment.end || startTime + 1` in `segmentTranscript`. -/
def fragEnd (f : RawFragment) : ℚ := jsNumOr f.stop (fragStart f + 1)

/-- `const text = (segment.text || '').trim()` in `segmentTranscript`. -/
def fragText (f : RawFragment) : String := jsTrim (f.text.getD "")

/-- The `ISegment` shape from `models/Video`. -/
structure ISegment where
  startTime : ℚ
  endTime : ℚ
  text : String
  segmentIndex : Nat
deriving DecidableEq

/-- `TranscriptionService.segmentDuration = 300` (5 minutes in seconds). -/
def segmentDuration : ℚ := 300

/-- `const minWords = 50` in `ensureMinimumSegmentLength`. -/
def minWords : Nat := 50

/-- The fragment loop of `TranscriptionService.segmentTranscript` (the coarse
pass): state is the optional running segment `currentSegment` and the counter
`segmentIndex`; fragments with empty trimmed text are skipped; the running
segment is flushed and restarted when its own elapsed duration reaches the
300-second threshold, and flushed unconditionally at end of input. -/
def segmentTranscriptLoop : List RawFragment → Option ISegment → Nat → List ISegment
  | [], none, _ => []
  | [], some cur, _ => [cur]
  | f :: rest, curOpt, idx =>
    let startTime := fragStart f
    let endTime := fragEnd f
    let text := fragText f
    if text = "" then
      segmentTranscriptLoop rest curOpt idx
    else
      match curOpt with
      | none =>
        segmentTranscriptLoop rest (some ⟨startTime, endTime, text, idx⟩) idx
      | some cur =>
        if segmentDuration ≤ cur.endTime - cur.startTime then
          cur :: segmentTranscriptLoop rest (some ⟨startTime, endTime, text, idx + 1⟩) (idx + 1)
        else
          segmentTranscriptLoop rest
            (some { cur with endTime := endTime, text := cur.text ++ " " ++ text }) idx

/-- The coarse pass of `TranscriptionService.segmentTranscript`, before
`ensureMinimumSegmentLength` is applied. -/
def segmentTranscriptCoarse (frags : List RawFragment) : List ISegment :=
  segmentTranscriptLoop frags none 0

/-- The segment loop of `TranscriptionService.ensureMinimumSegmentLength`:
an incoming segment with fewer than 50 words is merged into the running
segment; one with at least 50 words flushes the running segment and becomes
the new running segment; the last running segment is flushed at end of input. -/
def ensureMinLoop : List ISegment → Option ISegment → List ISegment
  | [], none => []
  | [], some cur => [cur]
  | s :: rest, none => ensureMinLoop rest (some s)
  | s :: rest, some cur =>
    if wordCount s.text < minWords then
      ensureMinLoop rest (some { cur with endTime := s.endTime, text := cur.text ++ " " ++ s.text })
    else
      cur :: ensureMinLoop rest (some s)

/-- `TranscriptionService.ensureMinimumSegmentLength`: the minimum-word-count
pass followed by the contiguous re-indexing `result.map((segment, index) => ...)`. -/
def ensureMinimumSegmentLength (segments : List ISegment) : List ISegment :=
  (ensureMinLoop segments none).mapIdx fun index s => { s with segmentIndex := index }

/-- `TranscriptionService.segmentTranscript` on an already-validated fragment
list: the coarse pass followed by the minimum-length pass. -/
def segmentTranscript (frags : List RawFragment) : List ISegment :=
  ensureMinimumSegmentLength (segmentTranscriptCoarse frags)

/-- Formalisation of claim C2's WORDING of the minimum-length pass (not of the
source): accumulate until the RUNNING segment's word count reaches the
threshold, then flush and start fresh from the next segment.  Used only to
compare the claim's description with the source's `ensureMinLoop`. -/
def ensureMinSpecLoop : List ISegment → Option ISegment → List ISegment
  | [], none => []
  | [], some cur => [cur]
  | s :: rest, none => ensureMinSpecLoop rest (some s)
  | s :: rest, some cur =>
    if minWords ≤ wordCount cur.text then
      cur :: ensureMinSpecLoop rest (some s)
    else
      ensureMinSpecLoop rest (some { cur with endTime := s.endTime, text := cur.text ++ " " ++ s.text })

/-- The minimum-length pass as claim C2 words it, with the same re-indexing. -/
def ensureMinimumSegmentLengthSpec (segments : List ISegment) : List ISegment :=
  (ensureMinSpecLoop segments none).mapIdx fun index s => { s with segmentIndex := index }

/-- Sixty words of text: `"a a ... a"` with sixty `a`s. -/
def sixtyWords : String := String.intercalate " " (List.replicate 60 "a")

/-- The raw fragment pair of the spec example behind claim C1. -/
def fragsC1 : List RawFragment :=
  [⟨some 0, some 310, some sixtyWords⟩, ⟨some 310, some 320, some "b"⟩]

/-- The two coarse segments used to refute claim C2's description of the
minimum-length pass: a sixty-word segment followed by a one-word segment. -/
def segsC2 : List ISegment := [⟨0, 10, sixtyWords, 0⟩, ⟨10, 20, "b", 1⟩]

/-- The `IQuestion` shape from `models/Video`. -/
structure IQuestion where
  question : String
  options : List String
  correctAnswer : Nat
  explanation : Option String
  segmentIndex : Nat
deriving DecidableEq

/-- The behaviourally relevant fields of the persisted `IVideo` aggregate for
the quiz operations: the stored question pool (possibly absent, mirroring the
`!video.questions` check) and the transcript segments.  The upload metadata
and status fields of `IVideo` never influence `generateQuiz`/`submitQuiz`. -/
structure Video where
  questions : Option (List IQuestion)
  segments : List ISegment

/-- The two failure cases of the quiz endpoints: `Video.findById` returning
null (`'Video not found'`) and an absent or empty question pool
(`'No questions available ...'`). -/
inductive QuizError where
  | videoNotFound
  | noQuestions
deriving DecidableEq

/-- A random oracle standing in for the stream of `Math.random()` draws of one
`shuffleArray` call: at loop index `i` the drawn position is
`min (c i) i`, covering exactly the range of `Math.floor(Math.random() * (i + 1))`. -/
abbrev RandOracle := Nat → Nat

/-- The destructuring swap `[a[i], a[j]] = [a[j], a[i]]` in `shuffleArray`,
as a total list operation (unchanged when either index is out of range, which
never happens inside `shuffleArray`). -/
def swapEntry (l : List α) (i j : Nat) : List α :=
  match l[i]?, l[j]? with
  | some x, some y => (l.set i y).set j x
  | _, _ => l

/-- The loop of `QuestionController.shuffleArray`:
`for (let i = length - 1; i > 0; i--) { j = rand in [0,i]; swap i j }`,
with the iteration counter as the first argument. -/
def fyLoop (c : RandOracle) : Nat → List α → List α
  | 0, l => l
  | i + 1, l => fyLoop c i (swapEntry l (i + 1) (min (c (i + 1)) (i + 1)))

/-- `QuestionController.shuffleArray`: a Fisher–Yates shuffle of a copy of the
input, with the random draws supplied by the oracle `c`. -/
def shuffleArray (c : RandOracle) (l : List α) : List α :=
  match l.length with
  | 0 => l
  | n + 1 => fyLoop c n l

/-- JS `[...new Set(xs)]` on numbers: deduplication keeping the first
occurrence of each value, in insertion order. -/
def dedupFirstAux (seen : List Nat) : List Nat → List Nat
  | [] => []
  | x :: rest =>
    if x ∈ seen then dedupFirstAux seen rest else x :: dedupFirstAux (x :: seen) rest

/-- `[...new Set(video.questions.map(q => q.segmentIndex))]` in `generateQuiz`. -/
def jsSetDedup (l : List Nat) : List Nat := dedupFirstAux [] l

/-- JS truthiness of the optional numeric query parameter `totalQuestions`:
`undefined` and `0` are falsy. -/
def jsTruthyNum : Option Nat → Bool
  | none => false
  | some k => k != 0

/-- The per-segment branch of `generateQuiz`: for each distinct
`segmentIndex` (in first-occurrence order), shuffle that segment's questions
and take the first `questionsPerSegment`, concatenating the picks. -/
def perSegmentSelect (questions : List IQuestion) (questionsPerSegment : Nat)
    (cSeg : Nat → RandOracle) : List IQuestion :=
  ((jsSetDedup (questions.map (·.segmentIndex))).map fun si =>
    (shuffleArray (cSeg si) (questions.filter fun q => q.segmentIndex == si)).take
      questionsPerSegment).flatten

/-- The successful response shape of `generateQuiz`.  Each selected question is
paired with its `questionIndex` (its zero-based position in the final list);
the fixed `instructions` string of the source is omitted as a constant. -/
structure QuizOutput where
  quizId : String
  questions : List (IQuestion × Nat)
  totalQuestions : Nat
deriving DecidableEq

/-- `QuestionController.generateQuiz`.  `video?` is the `Video.findById`
result; `now` is the `Date.now()` timestamp used only for the `quizId`;
`cTotal`, `cSeg` and `cFinal` are the random oracles consumed by the
whole-pool shuffle, the per-segment shuffles (indexed by `segmentIndex`) and
the optional final shuffle.  The source defaults are
`questionsPerSegment = 2`, `totalQuestions` absent, `shuffle = true`. -/
def generateQuiz (video? : Option Video) (videoId : String) (now : Nat)
    (questionsPerSegment : Nat) (totalQuestions : Option Nat) (shuffle : Bool)
    (cTotal : RandOracle) (cSeg : Nat → RandOracle) (cFinal : RandOracle) :
    Except QuizError QuizOutput :=
  match video? with
  | none => .error .videoNotFound
  | some video =>
    match video.questions with
    | none => .error .noQuestions
    | some qs =>
      if qs.length = 0 then .error .noQuestions
      else
        let selectedQuestions :=
          if jsTruthyNum totalQuestions then
            (shuffleArray cTotal qs).take (totalQuestions.getD 0)
          else
            perSegmentSelect qs questionsPerSegment cSeg
        let finalSelection :=
          if shuffle then shuffleArray cFinal selectedQuestions else selectedQuestions
        .ok
          { quizId := videoId ++ "_" ++ toString now,
            questions := finalSelection.mapIdx fun index q => (q, index),
            totalQuestions := finalSelection.length }

/-- One submitted answer pair of a `QuizSubmission`. -/
structure QuizAnswer where
  questionIndex : Nat
  selectedAnswer : Nat
deriving DecidableEq

/-- One per-answer result record of a `QuizResult`. -/
structure AnswerRecord where
  questionIndex : Nat
  question : String
  selectedAnswer : Nat
  correctAnswer : Nat
  isCorrect : Bool
  explanation : String
deriving DecidableEq

/-- The grading loop of `QuestionController.submitQuiz`: walk the submitted
answers; an in-bounds `questionIndex` produces a result record and counts
toward the score when correct; an out-of-bounds one is skipped.  Returns the
result records and the correct count. -/
def gradeLoop (qs : List IQuestion) : List QuizAnswer → List AnswerRecord × Nat
  | [] => ([], 0)
  | a :: rest =>
    match qs[a.questionIndex]? with
    | some q =>
      let isCorrect := a.selectedAnswer == q.correctAnswer
      let r := gradeLoop qs rest
      ({ questionIndex := a.questionIndex, question := q.question,
         selectedAnswer := a.selectedAnswer, correctAnswer := q.correctAnswer,
         isCorrect := isCorrect,
         explanation := q.explanation.getD "No explanation provided" } :: r.1,
        (if isCorrect then 1 else 0) + r.2)
    | none => gradeLoop qs rest

/-- JS `Math.round`: round half toward positive infinity. -/
def jsRound (x : ℚ) : ℤ := ⌊x + 1 / 2⌋

/-- The `QuizResult` response shape of `submitQuiz`. -/
structure QuizResult where
  score : Nat
  totalQuestions : Nat
  percentage : ℤ
  answers : List AnswerRecord
deriving DecidableEq

/-- `QuestionController.submitQuiz`: grade a submission against the stored
question list of the referenced video. -/
def submitQuiz (video? : Option Video) (answers : List QuizAnswer) :
    Except QuizError QuizResult :=
  match video? with
  | none => .error .videoNotFound
  | some video =>
    match video.questions with
    | none => .error .noQuestions
    | some qs =>
      if qs.length = 0 then .error .noQuestions
      else
        let graded := gradeLoop qs answers
        let totalQuestions := answers.length
        let percentage : ℤ :=
          if 0 < totalQuestions then jsRound ((graded.2 : ℚ) / (totalQuestions : ℚ) * 100)
          else 0
        .ok
          { score := graded.2, totalQuestions := totalQuestions,
            percentage := percentage, answers := graded.1 }

/-- The two-question pool used to refute claim C5's strict-subset clause. -/
def poolC5 : List IQuestion :=
  [⟨"q1", ["a", "b", "c", "d"], 0, none, 0⟩, ⟨"q2", ["a", "b", "c", "d"], 1, none, 0⟩]

/-- A proper sub-collection of a pool: contained in it as a multiset but not
all of it.  This is claim C5's "strict subset of the pool". -/
def IsStrictSubPool (sub pool : List IQuestion) : Prop :=
  List.Subperm sub pool ∧ ¬ List.Perm sub pool

/-- A three-question pool spanning two segment groups, for the witnesses. -/
def poolC6 : List IQuestion :=
  [⟨"q1", ["a", "b", "c", "d"], 0, none, 0⟩, ⟨"q2", ["a", "b", "c", "d"], 1, none, 0⟩,
    ⟨"q3", ["a", "b", "c", "d"], 2, none, 1⟩]

/-- Whether a submitted answer pair is graded correct: its `questionIndex`
is in bounds of the stored list and the selected answer equals the stored
`correctAnswer`. -/
def answerIsCorrect (qs : List IQuestion) (a : QuizAnswer) : Bool :=
  match qs[a.questionIndex]? with
  | some q => a.selectedAnswer == q.correctAnswer
  | none => false

/-- The two-question pool used by the grading witnesses. -/
def poolGrade : List IQuestion :=
  [⟨"q1", ["a", "b", "c", "d"], 1, some "e1", 0⟩, ⟨"q2", ["a", "b", "c", "d"], 2, none, 0⟩]

/-- The ill-formed fragment (start 10, end 5) used to refute claim C3. -/
def fragC3 : RawFragment := ⟨some 10, some 5, some "x"⟩

/-- Trimming the sixty-word text is a no-op (it has no edge whitespace). -/
theorem jsTrim_sixtyWords : jsTrim sixtyWords = sixtyWords := by decide

/-- The sixty-word text has exactly sixty words. -/
theorem wordCount_sixtyWords : wordCount sixtyWords = 60 := by decide

/-- The sixty-word text is not empty. -/
theorem sixtyWords_ne_empty : sixtyWords ≠ "" := by decide

/-- Evaluation of the coarse pass on the claim C1 example: the running
segment's duration 310 has reached the 300-second threshold when the second
fragment arrives, so the coarse pass yields two segments. -/
theorem fragsC1_coarse_eval :
    segmentTranscriptCoarse fragsC1 = [⟨0, 310, sixtyWords, 0⟩, ⟨310, 320, "b", 1⟩] := by
  norm_num [fragsC1, segmentTranscriptCoarse, segmentTranscriptLoop, fragStart, fragEnd,
    fragText, jsNumOr, segmentDuration, jsTrim_sixtyWords, sixtyWords_ne_empty,
    show jsTrim "b" = "b" from by decide, show "b" ≠ "" from by decide]

/-- Evaluation of the full merger on the claim C1 example: the one-word second
coarse segment is merged backward into the first, leaving a single segment. -/
theorem fragsC1_eval :
    segmentTranscript fragsC1 = [⟨0, 320, sixtyWords ++ " b", 0⟩] := by
  norm_num [fragsC1, segmentTranscript, segmentTranscriptCoarse, segmentTranscriptLoop,
    ensureMinimumSegmentLength, ensureMinLoop, fragStart, fragEnd, fragText,
    jsNumOr, segmentDuration, jsTrim_sixtyWords, sixtyWords_ne_empty,
    show jsTrim "b" = "b" from by decide, show "b" ≠ "" from by decide,
    show wordCount "b" < minWords from by decide,
    show sixtyWords ++ " " ++ "b" = sixtyWords ++ " b" from by decide]

/-- Counterexample to claim C1 as stated: the merger does NOT produce two
final segments on the example input; it produces one. -/
theorem fragsC1_not_two_segments : ¬ (segmentTranscript fragsC1).length = 2 := by
  rw [fragsC1_eval]
  decide

/-- Amended claim C1: on the example input the coarse pass does split after
the first fragment (two coarse segments), but the minimum-length pass merges
the one-word second segment backward into the first rather than flushing it
alone, so the merger produces exactly one final segment spanning (0, 320)
with the sixty words followed by "b". -/
theorem fragsC1_merges_backward :
    segmentTranscriptCoarse fragsC1 = [⟨0, 310, sixtyWords, 0⟩, ⟨310, 320, "b", 1⟩] ∧
    segmentTranscript fragsC1 = [⟨0, 320, sixtyWords ++ " b", 0⟩] ∧
    (segmentTranscript fragsC1).length = 1 :=
  ⟨fragsC1_coarse_eval, fragsC1_eval, by rw [fragsC1_eval]; rfl⟩

/-- Evaluation of the source's minimum-length pass on `segsC2`: the incoming
one-word segment is merged backward into the running sixty-word segment. -/
theorem segsC2_code_eval :
    ensureMinimumSegmentLength segsC2 = [⟨0, 20, sixtyWords ++ " b", 0⟩] := by
  norm_num [segsC2, ensureMinimumSegmentLength, ensureMinLoop, jsTrim_sixtyWords,
    show wordCount "b" < minWords from by decide,
    show sixtyWords ++ " " ++ "b" = sixtyWords ++ " b" from by decide]

/-- Evaluation of claim C2's wording on `segsC2`: the running segment has
sixty words, so by the claim it should flush when the next segment arrives,
leaving two segments. -/
theorem segsC2_spec_eval :
    ensureMinimumSegmentLengthSpec segsC2 = [⟨0, 10, sixtyWords, 0⟩, ⟨10, 20, "b", 1⟩] := by
  norm_num [segsC2, ensureMinimumSegmentLengthSpec, ensureMinSpecLoop,
    show minWords ≤ wordCount sixtyWords from by decide]

/-- Counterexample to claim C2 as stated: the source decides on the INCOMING
segment's word count, not the running segment's; on `segsC2` the source
merges (one output segment) while the claim's described pass flushes (two
output segments). -/
theorem ensureMin_code_ne_spec :
    ensureMinimumSegmentLength segsC2 ≠ ensureMinimumSegmentLengthSpec segsC2 := by
  rw [segsC2_code_eval, segsC2_spec_eval]
  intro h
  have := congrArg List.length h
  simp at this

/-- The contiguous re-indexing pass: the output's `segmentIndex` values are
exactly the positions `0, 1, 2, ...`. -/
theorem reindex_map_segmentIndex (l : List ISegment) :
    (l.mapIdx fun index s => { s with segmentIndex := index }).map (·.segmentIndex) =
      List.range l.length := by
  rw [List.mapIdx_eq_enum_map, List.map_map]
  have h : ((fun s : ISegment => s.segmentIndex) ∘
      Function.uncurry fun index s => { s with segmentIndex := index }) =
      (Prod.fst : Nat × ISegment → Nat) := by
    funext p
    rfl
  rw [h]
  exact List.enum_map_fst l

/-- The minimum-length loop emits one segment per incoming segment of at
least 50 words, plus one for the final flush of the running segment. -/
theorem ensureMinLoop_length (cur : ISegment) :
    ∀ segs : List ISegment,
      (ensureMinLoop segs (some cur)).length =
        1 + segs.countP fun s => decide (minWords ≤ wordCount s.text) := by
  intro segs
  induction segs generalizing cur with
  | nil => simp [ensureMinLoop]
  | cons s rest ih =>
    rw [List.countP_cons]
    by_cases hwc : wordCount s.text < minWords
    · have hnot : ¬ minWords ≤ wordCount s.text := by omega
      simp [ensureMinLoop, hwc, ih, hnot]
    · have hle : minWords ≤ wordCount s.text := by omega
      simp [ensureMinLoop, hwc, ih, hle]
      omega

/-- Amended claim C2: the minimum-length pass decides on the INCOMING coarse
segment's word count (naive split on single spaces, counting empty tokens):
an incoming segment with fewer than 50 words is merged backward into the
running segment, one with at least 50 words flushes the running segment and
becomes the new running segment, and the last running segment always
flushes; the output is re-indexed contiguously from zero, and has one
segment per 50-word-or-more segment after the first, plus one. -/
theorem ensureMin_incoming_word_count :
    (∀ segs : List ISegment,
      (ensureMinimumSegmentLength segs).map (·.segmentIndex) =
        List.range (ensureMinimumSegmentLength segs).length) ∧
    ensureMinimumSegmentLength ([] : List ISegment) = [] ∧
    (∀ (s : ISegment) (rest : List ISegment) (cur : ISegment),
      wordCount s.text < minWords →
      ensureMinLoop (s :: rest) (some cur) =
        ensureMinLoop rest
          (some { cur with endTime := s.endTime, text := cur.text ++ " " ++ s.text })) ∧
    (∀ (s : ISegment) (rest : List ISegment) (cur : ISegment),
      minWords ≤ wordCount s.text →
      ensureMinLoop (s :: rest) (some cur) = cur :: ensureMinLoop rest (some s)) ∧
    (∀ cur : ISegment, ensureMinLoop [] (some cur) = [cur]) ∧
    (∀ (s : ISegment) (rest : List ISegment),
      (ensureMinimumSegmentLength (s :: rest)).length =
        1 + rest.countP fun t => decide (minWords ≤ wordCount t.text)) := by
  refine ⟨?_, rfl, ?_, ?_, fun cur => rfl, ?_⟩
  · intro segs
    unfold ensureMinimumSegmentLength
    rw [reindex_map_segmentIndex, List.length_mapIdx]
  · intro s rest cur hwc
    simp [ensureMinLoop, hwc]
  · intro s rest cur hwc
    have hnot : ¬ wordCount s.text < minWords := by omega
    simp [ensureMinLoop, hnot]
  · intro s rest
    unfold ensureMinimumSegmentLength
    rw [List.length_mapIdx]
    show (ensureMinLoop rest (some s)).length = _
    exact ensureMinLoop_length s rest

/-- Witness for the amended claim C2 on `segsC2`: the one-word second segment
is below the threshold, so it is merged backward and the output length is
`1 + 0`. -/
theorem ensureMin_incoming_word_count_witness :
    ensureMinLoop [(⟨10, 20, "b", 1⟩ : ISegment)] (some ⟨0, 10, sixtyWords, 0⟩) =
      ensureMinLoop []
        (some { (⟨0, 10, sixtyWords, 0⟩ : ISegment) with
          endTime := (20 : ℚ), text := sixtyWords ++ " " ++ "b" }) ∧
    (ensureMinimumSegmentLength segsC2).length =
      1 + ([⟨10, 20, "b", 1⟩] : List ISegment).countP
        fun t => decide (minWords ≤ wordCount t.text) :=
  ⟨ensureMin_incoming_word_count.2.2.1 ⟨10, 20, "b", 1⟩ [] ⟨0, 10, sixtyWords, 0⟩ (by decide),
    ensureMin_incoming_word_count.2.2.2.2.2 ⟨0, 10, sixtyWords, 0⟩ [⟨10, 20, "b", 1⟩]⟩

/-- Writing `a` over position `k` of `t` while prepending the old value `y` of
that position is a permutation of prepending `a` itself. -/
theorem set_cons_perm (t : List α) (k : Nat) (a y : α) (h : t[k]? = some y) :
    List.Perm (a :: t) (y :: t.set k a) := by
  induction t generalizing k with
  | nil => simp at h
  | cons b t ih =>
    cases k with
    | zero =>
      simp only [List.getElem?_cons_zero, Option.some.injEq] at h
      subst h
      exact List.Perm.swap _ _ _
    | succ k =>
      simp only [List.getElem?_cons_succ] at h
      simp only [List.set_cons_succ]
      exact ((List.Perm.swap _ _ _).trans ((ih k h).cons b)).trans (List.Perm.swap _ _ _)

/-- `swapEntry` permutes the list. -/
theorem swapEntry_perm (l : List α) (i j : Nat) : List.Perm (swapEntry l i j) l := by
  induction l generalizing i j with
  | nil => simp [swapEntry]
  | cons a t ih =>
    cases hi : (a :: t)[i]? with
    | none => simp [swapEntry, hi]
    | some x =>
      cases hj : (a :: t)[j]? with
      | none => simp [swapEntry, hj]
      | some y =>
        simp only [swapEntry, hi, hj]
        cases i with
        | zero =>
          simp only [List.getElem?_cons_zero, Option.some.injEq] at hi
          subst hi
          cases j with
          | zero =>
            simp only [List.getElem?_cons_zero, Option.some.injEq] at hj
            simp [hj]
          | succ j =>
            simp only [List.getElem?_cons_succ] at hj
            simp only [List.set_cons_zero, List.set_cons_succ]
            exact (set_cons_perm t j a y hj).symm
        | succ i =>
          simp only [List.getElem?_cons_succ] at hi
          cases j with
          | zero =>
            simp only [List.getElem?_cons_zero, Option.some.injEq] at hj
            subst hj
            simp only [List.set_cons_succ, List.set_cons_zero]
            exact (set_cons_perm t i a x hi).symm
          | succ j =>
            simp only [List.getElem?_cons_succ] at hj
            simp only [List.set_cons_succ]
            have := ih i j
            simp only [swapEntry, hi, hj] at this
            exact this.cons a

/-- Every iteration count of the `shuffleArray` loop preserves the multiset of
elements. -/
theorem fyLoop_perm (c : RandOracle) : ∀ (n : Nat) (l : List α), List.Perm (fyLoop c n l) l
  | 0, l => List.Perm.refl l
  | n + 1, l =>
    (fyLoop_perm c n _).trans (swapEntry_perm l (n + 1) (min (c (n + 1)) (n + 1)))

/-- `shuffleArray` returns a permutation of its input, whatever the oracle. -/
theorem shuffleArray_perm (c : RandOracle) (l : List α) : List.Perm (shuffleArray c l) l := by
  unfold shuffleArray
  split
  · exact List.Perm.refl l
  · exact fyLoop_perm c _ l

/-- `shuffleArray` preserves length. -/
theorem shuffleArray_length (c : RandOracle) (l : List α) :
    (shuffleArray c l).length = l.length :=
  (shuffleArray_perm c l).length_eq

/-- Dropping the attached `questionIndex` annotations recovers the selected
questions. -/
theorem mapIdx_pair_fst (l : List α) :
    (l.mapIdx fun index a => (a, index)).map Prod.fst = l := by
  rw [List.mapIdx_eq_enum_map, List.map_map]
  have h : (Prod.fst ∘ Function.uncurry fun (index : Nat) (a : α) => (a, index)) =
      (Prod.snd : Nat × α → α) := by
    funext p
    rfl
  rw [h]
  exact List.enum_map_snd l

/-- The attached `questionIndex` annotations are the positions `0, 1, 2, ...`
in the final list. -/
theorem mapIdx_pair_snd (l : List α) :
    (l.mapIdx fun index a => (a, index)).map Prod.snd = List.range l.length := by
  rw [List.mapIdx_eq_enum_map, List.map_map]
  have h : (Prod.snd ∘ Function.uncurry fun (index : Nat) (a : α) => (a, index)) =
      (Prod.fst : Nat × α → Nat) := by
    funext p
    rfl
  rw [h]
  exact List.enum_map_fst l

/-- The questions selected by the `totalQuestions` branch of `generateQuiz`,
after the optional final shuffle: a prefix of length `totalQuestions` of a
shuffled copy of the pool, further permuted when `shuffle` is set. -/
theorem generateQuiz_total_eq (v : Video) (qs : List IQuestion) (videoId : String) (now : Nat)
    (qps K : Nat) (shuffle : Bool) (cTotal : RandOracle) (cSeg : Nat → RandOracle)
    (cFinal : RandOracle) (hq : v.questions = some qs) (hne : qs ≠ []) (hK : 1 ≤ K) :
    generateQuiz (some v) videoId now qps (some K) shuffle cTotal cSeg cFinal =
      .ok
        { quizId := videoId ++ "_" ++ toString now,
          questions :=
            (if shuffle then shuffleArray cFinal ((shuffleArray cTotal qs).take K)
              else (shuffleArray cTotal qs).take K).mapIdx fun index q => (q, index),
          totalQuestions :=
            (if shuffle then shuffleArray cFinal ((shuffleArray cTotal qs).take K)
              else (shuffleArray cTotal qs).take K).length } := by
  have hlen : ¬ qs.length = 0 := by
    simpa [List.length_eq_zero] using hne
  have hKne : jsTruthyNum (some K) = true := by
    have hK0 : K ≠ 0 := by omega
    simp [jsTruthyNum, hK0]
  simp only [generateQuiz, hq, hlen, if_false, hKne, if_true, Option.getD_some]

/-- Amended claim C5: with `totalQuestions = K`, `1 ≤ K`, the quiz is a
duplicate-free sample of the pool: it has `min K M` questions (so exactly `K`
when `K ≤ M`), is a sub-permutation of the pool (each question a distinct
original pool entry), is a permutation of the full pool exactly when `M ≤ K`
(in particular a proper sub-collection only when `K < M`), and its
`questionIndex` annotations are the contiguous positions of the final order. -/
theorem generateQuiz_totalQuestions_sample (v : Video) (qs : List IQuestion) (videoId : String)
    (now : Nat) (qps K : Nat) (shuffle : Bool) (cTotal : RandOracle) (cSeg : Nat → RandOracle)
    (cFinal : RandOracle) (hq : v.questions = some qs) (hne : qs ≠ []) (hK : 1 ≤ K) :
    ∃ out,
      generateQuiz (some v) videoId now qps (some K) shuffle cTotal cSeg cFinal = .ok out ∧
      (out.questions.map Prod.fst).length = min K qs.length ∧
      List.Subperm (out.questions.map Prod.fst) qs ∧
      (K ≤ qs.length → (out.questions.map Prod.fst).length = K) ∧
      (K < qs.length → ¬ List.Perm (out.questions.map Prod.fst) qs) ∧
      (qs.length ≤ K → List.Perm (out.questions.map Prod.fst) qs) ∧
      out.questions.map Prod.snd = List.range (out.questions.map Prod.fst).length ∧
      out.totalQuestions = (out.questions.map Prod.fst).length := by
  refine ⟨_, generateQuiz_total_eq v qs videoId now qps K shuffle cTotal cSeg cFinal hq hne hK,
    ?_⟩
  set sel := (shuffleArray cTotal qs).take K with hsel
  set fin := if shuffle then shuffleArray cFinal sel else sel with hfin
  have hperm : List.Perm fin sel := by
    cases shuffle <;> simp [hfin, shuffleArray_perm]
  have hfst : (fin.mapIdx fun index q => (q, index)).map Prod.fst = fin := mapIdx_pair_fst fin
  have hlensel : sel.length = min K qs.length := by
    rw [hsel, List.length_take, shuffleArray_length]
  have hlen : fin.length = min K qs.length := hperm.length_eq.trans hlensel
  refine ⟨by rw [hfst]; exact hlen, ?_, ?_, ?_, ?_, ?_, ?_⟩
  · rw [hfst]
    exact hperm.subperm.trans
      (((List.take_sublist K _).subperm).trans (shuffleArray_perm cTotal qs).subperm)
  · intro hKM
    rw [hfst, hlen]
    exact Nat.min_eq_left hKM
  · intro hKM hcontra
    rw [hfst] at hcontra
    have := hcontra.length_eq
    rw [hlen, Nat.min_eq_left (Nat.le_of_lt hKM)] at this
    omega
  · intro hMK
    rw [hfst]
    have : sel = shuffleArray cTotal qs := by
      rw [hsel]
      exact List.take_of_length_le (by rw [shuffleArray_length]; exact hMK)
    exact hperm.trans (this ▸ shuffleArray_perm cTotal qs)
  · rw [hfst, mapIdx_pair_snd]
  · rw [hfst]

/-- Counterexample to claim C5 as stated: with `K = M = 2` (allowed by
`K ≤ M`), `generateQuiz` returns the entire pool (permuted), which is not a
strict subset of the pool. -/
theorem generateQuiz_full_pool_not_strict :
    (generateQuiz (some ⟨some poolC5, []⟩) "v" 7 2 (some 2) false
        (fun _ => 0) (fun _ _ => 0) (fun _ => 0)).toOption =
      some
        { quizId := "v_7",
          questions := [(⟨"q2", ["a", "b", "c", "d"], 1, none, 0⟩, 0),
            (⟨"q1", ["a", "b", "c", "d"], 0, none, 0⟩, 1)],
          totalQuestions := 2 } ∧
    ¬ IsStrictSubPool [⟨"q2", ["a", "b", "c", "d"], 1, none, 0⟩,
        ⟨"q1", ["a", "b", "c", "d"], 0, none, 0⟩] poolC5 := by
  constructor
  · decide
  · intro h
    exact h.2 (by decide)

/-- Witness for the amended claim C5 at a concrete three-question pool with
`K = 2`. -/
theorem generateQuiz_totalQuestions_sample_witness :
    ∃ out,
      generateQuiz (some ⟨some poolC5, []⟩) "v" 7 2 (some 1) true
          (fun _ => 0) (fun _ _ => 0) (fun _ => 0) = .ok out ∧
      (out.questions.map Prod.fst).length = min 1 poolC5.length ∧
      List.Subperm (out.questions.map Prod.fst) poolC5 ∧
      (1 ≤ poolC5.length → (out.questions.map Prod.fst).length = 1) ∧
      (1 < poolC5.length → ¬ List.Perm (out.questions.map Prod.fst) poolC5) ∧
      (poolC5.length ≤ 1 → List.Perm (out.questions.map Prod.fst) poolC5) ∧
      out.questions.map Prod.snd = List.range (out.questions.map Prod.fst).length ∧
      out.totalQuestions = (out.questions.map Prod.fst).length :=
  generateQuiz_totalQuestions_sample ⟨some poolC5, []⟩ poolC5 "v" 7 2 1 true
    (fun _ => 0) (fun _ _ => 0) (fun _ => 0) rfl (by decide) (by decide)

/-- Values produced by the JS-Set deduplication come from the input and were
not in the seen accumulator. -/
theorem mem_dedupFirstAux {x : Nat} :
    ∀ {seen l : List Nat}, x ∈ dedupFirstAux seen l → x ∈ l ∧ x ∉ seen := by
  intro seen l
  induction l generalizing seen with
  | nil => simp [dedupFirstAux]
  | cons y rest ih =>
    intro h
    simp only [dedupFirstAux] at h
    by_cases hy : y ∈ seen
    · rw [if_pos hy] at h
      obtain ⟨h1, h2⟩ := ih h
      exact ⟨List.mem_cons_of_mem y h1, h2⟩
    · rw [if_neg hy] at h
      rcases List.mem_cons.mp h with hx | hx
      · subst hx
        exact ⟨List.mem_cons_self x rest, hy⟩
      · obtain ⟨h1, h2⟩ := ih hx
        refine ⟨List.mem_cons_of_mem y h1, fun hc => h2 (List.mem_cons_of_mem y hc)⟩

/-- The JS-Set deduplication never repeats a value. -/
theorem dedupFirstAux_nodup : ∀ (seen l : List Nat), (dedupFirstAux seen l).Nodup := by
  intro seen l
  induction l generalizing seen with
  | nil => simp [dedupFirstAux]
  | cons y rest ih =>
    simp only [dedupFirstAux]
    by_cases hy : y ∈ seen
    · rw [if_pos hy]
      exact ih seen
    · rw [if_neg hy]
      refine List.nodup_cons.mpr ⟨fun hc => ?_, ih (y :: seen)⟩
      exact (mem_dedupFirstAux hc).2 (List.mem_cons_self y seen)

/-- `jsSetDedup` never repeats a value. -/
theorem jsSetDedup_nodup (l : List Nat) : (jsSetDedup l).Nodup := dedupFirstAux_nodup [] l

/-- `jsSetDedup` on a non-empty list starts with the first element. -/
theorem jsSetDedup_cons (x : Nat) (l : List Nat) :
    jsSetDedup (x :: l) = x :: dedupFirstAux [x] l := by
  simp [jsSetDedup, dedupFirstAux]

/-- Every question picked for segment group `d` really belongs to group `d`. -/
theorem take_shuffle_filter_mem {qs : List IQuestion} {c : RandOracle} {n d : Nat}
    {q : IQuestion}
    (h : q ∈ (shuffleArray c (qs.filter fun q => q.segmentIndex == d)).take n) :
    q.segmentIndex = d := by
  have h1 := (List.take_sublist n _).subset h
  have h2 := (shuffleArray_perm c _).mem_iff.mp h1
  simpa using (List.mem_filter.mp h2).2

/-- The pick for segment group `d` has exactly `min n (group size)` questions. -/
theorem take_shuffle_filter_len (qs : List IQuestion) (c : RandOracle) (n d : Nat) :
    ((shuffleArray c (qs.filter fun q => q.segmentIndex == d)).take n).length =
      min n (qs.filter fun q => q.segmentIndex == d).length := by
  rw [List.length_take, shuffleArray_length]

/-- Over a duplicate-free list of group keys, the concatenated per-group picks
contain at most `min qps (group size)` questions of any single segment. -/
theorem flatten_parts_filter (qs : List IQuestion) (qps : Nat) (cSeg : Nat → RandOracle)
    (si : Nat) :
    ∀ L : List Nat, L.Nodup →
      (((L.map fun d =>
          (shuffleArray (cSeg d) (qs.filter fun q => q.segmentIndex == d)).take qps).flatten).filter
            (fun q => q.segmentIndex == si)).length ≤
        if si ∈ L then min qps (qs.filter fun q => q.segmentIndex == si).length else 0 := by
  intro L
  induction L with
  | nil => simp
  | cons d L ih =>
    intro hnd
    obtain ⟨hd, hnd⟩ := List.nodup_cons.mp hnd
    simp only [List.map_cons, List.flatten_cons, List.filter_append, List.length_append]
    by_cases hds : d = si
    · subst hds
      have h1 :
          ((shuffleArray (cSeg d) (qs.filter fun q => q.segmentIndex == d)).take qps).filter
            (fun q => q.segmentIndex == d) =
          (shuffleArray (cSeg d) (qs.filter fun q => q.segmentIndex == d)).take qps := by
        refine List.filter_eq_self.mpr fun q hq => ?_
        simpa using take_shuffle_filter_mem hq
      have h2 := ih hnd
      rw [if_neg hd] at h2
      rw [h1, take_shuffle_filter_len, if_pos (List.mem_cons_self d L)]
      omega
    · have h1 :
          ((shuffleArray (cSeg d) (qs.filter fun q => q.segmentIndex == d)).take qps).filter
            (fun q => q.segmentIndex == si) = [] := by
        refine List.filter_eq_nil_iff.mpr fun q hq => ?_
        have := take_shuffle_filter_mem hq
        simp [this, hds]
      have h2 := ih hnd
      rw [h1]
      by_cases hsiL : si ∈ L
      · rw [if_pos hsiL] at h2
        rw [if_pos (List.mem_cons_of_mem d hsiL)]
        simpa using h2
      · rw [if_neg hsiL] at h2
        rw [if_neg (by simp [hds, hsiL, Ne.symm])]
        simpa using h2

/-- A list of naturals each at most `n` sums to at most `length * n`. -/
theorem sum_le_length_mul : ∀ (l : List Nat) (n : Nat), (∀ x ∈ l, x ≤ n) → l.sum ≤ l.length * n := by
  intro l n
  induction l with
  | nil => simp
  | cons x rest ih =>
    intro h
    have hx := h x (List.mem_cons_self x rest)
    have hr := ih fun y hy => h y (List.mem_cons_of_mem x hy)
    simp only [List.sum_cons, List.length_cons]
    calc x + rest.sum ≤ n + rest.length * n := Nat.add_le_add hx hr
    _ = (rest.length + 1) * n := by ring

/-- The per-segment selection returns at most
`(number of distinct segment groups) * questionsPerSegment` questions. -/
theorem perSegmentSelect_length_le (qs : List IQuestion) (qps : Nat) (cSeg : Nat → RandOracle) :
    (perSegmentSelect qs qps cSeg).length ≤
      (jsSetDedup (qs.map (·.segmentIndex))).length * qps := by
  unfold perSegmentSelect
  rw [List.length_flatten, List.map_map]
  have h := sum_le_length_mul
    (((jsSetDedup (qs.map (·.segmentIndex))).map
      (List.length ∘ fun si =>
        (shuffleArray (cSeg si) (qs.filter fun q => q.segmentIndex == si)).take qps))) qps ?_
  · simpa using h
  · intro x hx
    obtain ⟨d, _, hd⟩ := List.mem_map.mp hx
    simp only [Function.comp] at hd
    rw [← hd, take_shuffle_filter_len]
    exact Nat.min_le_left _ _

/-- No single segment contributes more than `min qps (its own group size)`
questions to the per-segment selection. -/
theorem perSegmentSelect_filter_le (qs : List IQuestion) (qps : Nat) (cSeg : Nat → RandOracle)
    (si : Nat) :
    ((perSegmentSelect qs qps cSeg).filter fun q => q.segmentIndex == si).length ≤
      min qps (qs.filter fun q => q.segmentIndex == si).length := by
  unfold perSegmentSelect
  have h := flatten_parts_filter qs qps cSeg si (jsSetDedup (qs.map (·.segmentIndex)))
    (jsSetDedup_nodup _)
  by_cases hmem : si ∈ jsSetDedup (qs.map (·.segmentIndex))
  · rw [if_pos hmem] at h
    exact h
  · rw [if_neg hmem] at h
    omega

/-- The per-segment branch of `generateQuiz`, fully evaluated: when
`totalQuestions` is absent the selection is the per-segment concatenation,
optionally shuffled as a whole. -/
theorem generateQuiz_perSegment_eq (v : Video) (qs : List IQuestion) (videoId : String)
    (now : Nat) (qps : Nat) (shuffle : Bool) (cTotal : RandOracle) (cSeg : Nat → RandOracle)
    (cFinal : RandOracle) (hq : v.questions = some qs) (hne : qs ≠ []) :
    generateQuiz (some v) videoId now qps none shuffle cTotal cSeg cFinal =
      .ok
        { quizId := videoId ++ "_" ++ toString now,
          questions :=
            (if shuffle then shuffleArray cFinal (perSegmentSelect qs qps cSeg)
              else perSegmentSelect qs qps cSeg).mapIdx fun index q => (q, index),
          totalQuestions :=
            (if shuffle then shuffleArray cFinal (perSegmentSelect qs qps cSeg)
              else perSegmentSelect qs qps cSeg).length } := by
  have hlen : ¬ qs.length = 0 := by
    simpa [List.length_eq_zero] using hne
  simp only [generateQuiz, hq, hlen, if_false, jsTruthyNum, Bool.false_eq_true]

/-- Claim C6: per-segment quiz assembly returns at most
`questionsPerSegment * (number of distinct segment groups)` questions, no
single segment contributing more than `min(questionsPerSegment, its own group
size)`; before the optional whole-list shuffle the selection is exactly the
concatenation of the per-group picks in group order. -/
theorem generateQuiz_perSegment_bounds (v : Video) (qs : List IQuestion) (videoId : String)
    (now : Nat) (qps : Nat) (shuffle : Bool) (cTotal : RandOracle) (cSeg : Nat → RandOracle)
    (cFinal : RandOracle) (hq : v.questions = some qs) (hne : qs ≠ []) :
    ∃ out,
      generateQuiz (some v) videoId now qps none shuffle cTotal cSeg cFinal = .ok out ∧
      List.Perm (out.questions.map Prod.fst) (perSegmentSelect qs qps cSeg) ∧
      (shuffle = false → out.questions.map Prod.fst = perSegmentSelect qs qps cSeg) ∧
      (out.questions.map Prod.fst).length ≤
        (jsSetDedup (qs.map (·.segmentIndex))).length * qps ∧
      ∀ si, ((out.questions.map Prod.fst).filter fun q => q.segmentIndex == si).length ≤
        min qps (qs.filter fun q => q.segmentIndex == si).length := by
  refine ⟨_, generateQuiz_perSegment_eq v qs videoId now qps shuffle cTotal cSeg cFinal hq hne,
    ?_⟩
  set sel := perSegmentSelect qs qps cSeg with hsel
  set fin := if shuffle then shuffleArray cFinal sel else sel with hfin
  have hperm : List.Perm fin sel := by
    cases shuffle <;> simp [hfin, shuffleArray_perm]
  have hfst : (fin.mapIdx fun index q => (q, index)).map Prod.fst = fin := mapIdx_pair_fst fin
  refine ⟨?_, ?_, ?_, ?_⟩
  · rw [hfst]
    exact hperm
  · intro hsh
    rw [hfst, hfin, hsh]
    simp
  · rw [hfst, hperm.length_eq]
    exact perSegmentSelect_length_le qs qps cSeg
  · intro si
    rw [hfst, ← List.countP_eq_length_filter, hperm.countP_eq, List.countP_eq_length_filter]
    exact perSegmentSelect_filter_le qs qps cSeg si

/-- Witness for claim C6 at a concrete pool with two segment groups and
`questionsPerSegment = 1`. -/
theorem generateQuiz_perSegment_bounds_witness :
    ∃ out,
      generateQuiz (some ⟨some poolC6, []⟩) "v" 3 1 none false
          (fun _ => 0) (fun _ _ => 0) (fun _ => 0) = .ok out ∧
      List.Perm (out.questions.map Prod.fst)
        (perSegmentSelect poolC6 1 (fun _ _ => 0)) ∧
      (false = false → out.questions.map Prod.fst =
        perSegmentSelect poolC6 1 (fun _ _ => 0)) ∧
      (out.questions.map Prod.fst).length ≤
        (jsSetDedup (poolC6.map (·.segmentIndex))).length * 1 ∧
      ∀ si, ((out.questions.map Prod.fst).filter fun q => q.segmentIndex == si).length ≤
        min 1 (poolC6.filter fun q => q.segmentIndex == si).length :=
  generateQuiz_perSegment_bounds ⟨some poolC6, []⟩ poolC6 "v" 3 1 false
    (fun _ => 0) (fun _ _ => 0) (fun _ => 0) rfl (by decide)

/-- Claim C10: `totalQuestions = 0` is falsy, so the call is routed to the
per-segment branch and behaves exactly as if `totalQuestions` had been
omitted; with the default `questionsPerSegment = 2` and a non-empty pool the
returned quiz is in particular non-empty. -/
theorem generateQuiz_zero_total_routes_perSegment :
    (∀ (videoOpt : Option Video) (videoId : String) (now qps : Nat) (shuffle : Bool)
      (cTotal : RandOracle) (cSeg : Nat → RandOracle) (cFinal : RandOracle),
      generateQuiz videoOpt videoId now qps (some 0) shuffle cTotal cSeg cFinal =
        generateQuiz videoOpt videoId now qps none shuffle cTotal cSeg cFinal) ∧
    (∀ (v : Video) (qs : List IQuestion) (videoId : String) (now : Nat) (shuffle : Bool)
      (cTotal : RandOracle) (cSeg : Nat → RandOracle) (cFinal : RandOracle),
      v.questions = some qs → qs ≠ [] →
      ∃ out,
        generateQuiz (some v) videoId now 2 (some 0) shuffle cTotal cSeg cFinal = .ok out ∧
        out.questions ≠ []) := by
  have hroute : ∀ (videoOpt : Option Video) (videoId : String) (now qps : Nat) (shuffle : Bool)
      (cTotal : RandOracle) (cSeg : Nat → RandOracle) (cFinal : RandOracle),
      generateQuiz videoOpt videoId now qps (some 0) shuffle cTotal cSeg cFinal =
        generateQuiz videoOpt videoId now qps none shuffle cTotal cSeg cFinal := by
    intro videoOpt videoId now qps shuffle cTotal cSeg cFinal
    rfl
  refine ⟨hroute, ?_⟩
  intro v qs videoId now shuffle cTotal cSeg cFinal hq hne
  rw [hroute]
  refine ⟨_, generateQuiz_perSegment_eq v qs videoId now 2 shuffle cTotal cSeg cFinal hq hne,
    ?_⟩
  set sel := perSegmentSelect qs 2 cSeg with hsel
  set fin := if shuffle then shuffleArray cFinal sel else sel with hfin
  have hperm : List.Perm fin sel := by
    cases shuffle <;> simp [hfin, shuffleArray_perm]
  obtain ⟨q0, rest, hqs⟩ := List.exists_cons_of_ne_nil hne
  have hsel_pos : 0 < sel.length := by
    rw [hsel]
    unfold perSegmentSelect
    subst hqs
    rw [List.map_cons, jsSetDedup_cons, List.map_cons, List.flatten_cons, List.length_append]
    have hq0 : q0 ∈ (q0 :: rest).filter fun q => q.segmentIndex == q0.segmentIndex := by
      simp [List.mem_filter]
    have hpos : 0 < ((q0 :: rest).filter fun q => q.segmentIndex == q0.segmentIndex).length :=
      List.length_pos.mpr (List.ne_nil_of_mem hq0)
    rw [take_shuffle_filter_len]
    omega
  have hfin_pos : 0 < fin.length := by
    rw [hperm.length_eq]
    exact hsel_pos
  intro hc
  have := congrArg List.length hc
  simp only [List.length_mapIdx, List.length_nil] at this
  omega

/-- Witness for claim C10: a concrete non-empty pool with `totalQuestions = 0`
yields the same non-empty per-segment quiz as an omitted `totalQuestions`. -/
theorem generateQuiz_zero_total_witness :
    ∃ out,
      generateQuiz (some ⟨some poolC6, []⟩) "v" 3 2 (some 0) true
          (fun _ => 0) (fun _ _ => 0) (fun _ => 0) = .ok out ∧
      out.questions ≠ [] :=
  generateQuiz_zero_total_routes_perSegment.2 ⟨some poolC6, []⟩ poolC6 "v" 3 true
    (fun _ => 0) (fun _ _ => 0) (fun _ => 0) rfl (by decide)

/-- Claim C7: `generateQuiz` fails precisely on a missing video or a missing
or empty question pool, and succeeds in every other case. -/
theorem generateQuiz_error_characterisation :
    (∀ (videoId : String) (now qps : Nat) (tq : Option Nat) (shuffle : Bool)
      (cTotal : RandOracle) (cSeg : Nat → RandOracle) (cFinal : RandOracle),
      generateQuiz none videoId now qps tq shuffle cTotal cSeg cFinal =
        .error .videoNotFound) ∧
    (∀ (v : Video) (videoId : String) (now qps : Nat) (tq : Option Nat) (shuffle : Bool)
      (cTotal : RandOracle) (cSeg : Nat → RandOracle) (cFinal : RandOracle),
      (v.questions = none ∨ v.questions = some []) →
      generateQuiz (some v) videoId now qps tq shuffle cTotal cSeg cFinal =
        .error .noQuestions) ∧
    (∀ (v : Video) (qs : List IQuestion) (videoId : String) (now qps : Nat) (tq : Option Nat)
      (shuffle : Bool) (cTotal : RandOracle) (cSeg : Nat → RandOracle) (cFinal : RandOracle),
      v.questions = some qs → qs ≠ [] →
      ∃ out, generateQuiz (some v) videoId now qps tq shuffle cTotal cSeg cFinal = .ok out) := by
  refine ⟨fun _ _ _ _ _ _ _ _ => rfl, ?_, ?_⟩
  · intro v videoId now qps tq shuffle cTotal cSeg cFinal hq
    rcases hq with hq | hq <;> simp [generateQuiz, hq]
  · intro v qs videoId now qps tq shuffle cTotal cSeg cFinal hq hne
    have hlen : ¬ qs.length = 0 := by
      simpa [List.length_eq_zero] using hne
    simp only [generateQuiz, hq, hlen, if_false]
    exact ⟨_, rfl⟩

/-- Witness for claim C7 at concrete inputs: missing video, missing pool,
empty pool and a non-empty pool. -/
theorem generateQuiz_error_characterisation_witness :
    (generateQuiz none "v" 0 2 none true (fun _ => 0) (fun _ _ => 0) (fun _ => 0) =
      .error .videoNotFound) ∧
    (generateQuiz (some ⟨none, []⟩) "v" 0 2 none true (fun _ => 0) (fun _ _ => 0) (fun _ => 0) =
      .error .noQuestions) ∧
    (generateQuiz (some ⟨some [], []⟩) "v" 0 2 none true (fun _ => 0) (fun _ _ => 0)
      (fun _ => 0) = .error .noQuestions) ∧
    ∃ out,
      generateQuiz (some ⟨some poolC6, []⟩) "v" 0 2 none true (fun _ => 0) (fun _ _ => 0)
        (fun _ => 0) = .ok out :=
  ⟨generateQuiz_error_characterisation.1 "v" 0 2 none true (fun _ => 0) (fun _ _ => 0)
      (fun _ => 0),
    generateQuiz_error_characterisation.2.1 ⟨none, []⟩ "v" 0 2 none true (fun _ => 0)
      (fun _ _ => 0) (fun _ => 0) (Or.inl rfl),
    generateQuiz_error_characterisation.2.1 ⟨some [], []⟩ "v" 0 2 none true (fun _ => 0)
      (fun _ _ => 0) (fun _ => 0) (Or.inr rfl),
    generateQuiz_error_characterisation.2.2 ⟨some poolC6, []⟩ poolC6 "v" 0 2 none true
      (fun _ => 0) (fun _ _ => 0) (fun _ => 0) rfl (by decide)⟩

/-- The grading loop emits one result record per in-bounds answer pair. -/
theorem gradeLoop_results_length (qs : List IQuestion) :
    ∀ answers : List QuizAnswer,
      (gradeLoop qs answers).1.length =
        answers.countP fun a => decide (a.questionIndex < qs.length) := by
  intro answers
  induction answers with
  | nil => simp [gradeLoop]
  | cons a rest ih =>
    rw [List.countP_cons]
    cases hget : qs[a.questionIndex]? with
    | some q =>
      have hlt : a.questionIndex < qs.length := (List.getElem?_eq_some_iff.mp hget).1
      simp [gradeLoop, hget, ih, hlt]
    | none =>
      have hge : ¬ a.questionIndex < qs.length := by
        intro hc
        rw [List.getElem?_eq_getElem hc] at hget
        exact Option.noConfusion hget
      simp [gradeLoop, hget, ih, hge]

/-- The grading loop's correct count is the number of correctly answered
in-bounds pairs. -/
theorem gradeLoop_score (qs : List IQuestion) :
    ∀ answers : List QuizAnswer,
      (gradeLoop qs answers).2 = answers.countP (answerIsCorrect qs) := by
  intro answers
  induction answers with
  | nil => simp [gradeLoop]
  | cons a rest ih =>
    rw [List.countP_cons]
    cases hget : qs[a.questionIndex]? with
    | some q =>
      simp only [gradeLoop, hget, ih, answerIsCorrect]
      cases hc : a.selectedAnswer == q.correctAnswer <;> simp [hc] <;> omega
    | none =>
      simp [gradeLoop, hget, ih, answerIsCorrect]

/-- Out-of-bounds answer pairs are invisible to the grading loop: grading a
submission equals grading its in-bounds sublist. -/
theorem gradeLoop_filter (qs : List IQuestion) :
    ∀ answers : List QuizAnswer,
      gradeLoop qs answers =
        gradeLoop qs (answers.filter fun a => decide (a.questionIndex < qs.length)) := by
  intro answers
  induction answers with
  | nil => rfl
  | cons a rest ih =>
    cases hget : qs[a.questionIndex]? with
    | some q =>
      have hlt : a.questionIndex < qs.length := (List.getElem?_eq_some_iff.mp hget).1
      simp only [List.filter_cons, hlt, decide_True, if_true]
      simp [gradeLoop, hget, ih]
    | none =>
      have hge : ¬ a.questionIndex < qs.length := by
        intro hc
        rw [List.getElem?_eq_getElem hc] at hget
        exact Option.noConfusion hget
      simp [gradeLoop, hget, ih, List.filter_cons, hge]

/-- Claim C9: grading returns the number of correct in-bounds answers as the
score, the number of submitted pairs (skipped ones included) as
`totalQuestions`, and the percentage `round(correct / submitted * 100)`,
with `0` instead of a division error when nothing was submitted. -/
theorem submitQuiz_grading (v : Video) (qs : List IQuestion) (answers : List QuizAnswer)
    (hq : v.questions = some qs) (hne : qs ≠ []) :
    submitQuiz (some v) answers =
      .ok
        { score := answers.countP (answerIsCorrect qs),
          totalQuestions := answers.length,
          percentage :=
            if 0 < answers.length then
              jsRound ((answers.countP (answerIsCorrect qs) : ℚ) / (answers.length : ℚ) * 100)
            else 0,
          answers := (gradeLoop qs answers).1 } := by
  have hlen : ¬ qs.length = 0 := by
    simpa [List.length_eq_zero] using hne
  simp only [submitQuiz, hq, hlen, if_false, gradeLoop_score]

/-- Witness for claim C9: one correct and one incorrect answer out of two
yields score 1, totalQuestions 2 and percentage 50; the per-answer records
carry the stored data and the placeholder explanation. -/
theorem submitQuiz_grading_witness :
    submitQuiz (some ⟨some poolGrade, []⟩) [⟨0, 1⟩, ⟨1, 0⟩] =
      .ok
        { score := 1,
          totalQuestions := 2,
          percentage := 50,
          answers :=
            [⟨0, "q1", 1, 1, true, "e1"⟩, ⟨1, "q2", 0, 2, false, "No explanation provided"⟩] } := by
  rw [submitQuiz_grading ⟨some poolGrade, []⟩ poolGrade [⟨0, 1⟩, ⟨1, 0⟩] rfl (by decide)]
  have hcount : ([⟨0, 1⟩, ⟨1, 0⟩] : List QuizAnswer).countP (answerIsCorrect poolGrade) = 1 := by
    decide
  have hrecords :
      (gradeLoop poolGrade [⟨0, 1⟩, ⟨1, 0⟩]).1 =
        [⟨0, "q1", 1, 1, true, "e1"⟩, ⟨1, "q2", 0, 2, false, "No explanation provided"⟩] := by
    decide
  rw [hcount, hrecords]
  norm_num [jsRound]

/-- Claim C8: a submitted pair with an out-of-bounds `questionIndex` is
silently skipped: grading still succeeds, the result records are exactly
those of the in-bounds pairs (so the result list is shorter than the
submission), and the score is the score of the in-bounds pairs alone. -/
theorem submitQuiz_oob_skipped (v : Video) (qs : List IQuestion) (answers : List QuizAnswer)
    (a : QuizAnswer) (hq : v.questions = some qs) (hne : qs ≠ []) (ha : a ∈ answers)
    (hoob : qs.length ≤ a.questionIndex) :
    ∃ r, submitQuiz (some v) answers = .ok r ∧
      r.answers = (gradeLoop qs (answers.filter fun x => decide (x.questionIndex < qs.length))).1 ∧
      r.score = (gradeLoop qs (answers.filter fun x => decide (x.questionIndex < qs.length))).2 ∧
      r.answers.length = (answers.filter fun x => decide (x.questionIndex < qs.length)).length ∧
      r.answers.length < answers.length ∧
      r.totalQuestions = answers.length := by
  have hlen : ¬ qs.length = 0 := by
    simpa [List.length_eq_zero] using hne
  have heq : submitQuiz (some v) answers =
      .ok
        { score := (gradeLoop qs answers).2,
          totalQuestions := answers.length,
          percentage :=
            if 0 < answers.length then
              jsRound (((gradeLoop qs answers).2 : ℚ) / (answers.length : ℚ) * 100)
            else 0,
          answers := (gradeLoop qs answers).1 } := by
    simp only [submitQuiz, hq, hlen, if_false]
  refine ⟨_, heq, ?_, ?_, ?_, ?_, rfl⟩
  · show (gradeLoop qs answers).1 = _
    rw [gradeLoop_filter qs answers]
  · show (gradeLoop qs answers).2 = _
    rw [gradeLoop_filter qs answers]
  · show (gradeLoop qs answers).1.length = _
    rw [gradeLoop_results_length, List.countP_eq_length_filter]
  · show (gradeLoop qs answers).1.length < _
    rw [gradeLoop_results_length]
    have hle := List.countP_le_length (l := answers)
      (p := fun x => decide (x.questionIndex < qs.length))
    have hne2 : answers.countP (fun x => decide (x.questionIndex < qs.length)) ≠
        answers.length := by
      intro hc
      have := List.countP_eq_length.mp hc a ha
      simp only [decide_eq_true_eq] at this
      omega
    omega

/-- Witness for claim C8: a three-pair submission whose middle pair has
`questionIndex = 9` against a two-question pool produces only two result
records and the same score as without the out-of-bounds pair. -/
theorem submitQuiz_oob_skipped_witness :
    ∃ r : QuizResult, submitQuiz (some ⟨some poolGrade, []⟩) [⟨0, 1⟩, ⟨9, 1⟩, ⟨1, 0⟩] = .ok r ∧
      r.answers =
        (gradeLoop poolGrade
          (([⟨0, 1⟩, ⟨9, 1⟩, ⟨1, 0⟩] : List QuizAnswer).filter fun x =>
            decide (x.questionIndex < poolGrade.length))).1 ∧
      r.score =
        (gradeLoop poolGrade
          (([⟨0, 1⟩, ⟨9, 1⟩, ⟨1, 0⟩] : List QuizAnswer).filter fun x =>
            decide (x.questionIndex < poolGrade.length))).2 ∧
      r.answers.length =
        (([⟨0, 1⟩, ⟨9, 1⟩, ⟨1, 0⟩] : List QuizAnswer).filter fun x =>
          decide (x.questionIndex < poolGrade.length)).length ∧
      r.answers.length < ([⟨0, 1⟩, ⟨9, 1⟩, ⟨1, 0⟩] : List QuizAnswer).length ∧
      r.totalQuestions = ([⟨0, 1⟩, ⟨9, 1⟩, ⟨1, 0⟩] : List QuizAnswer).length :=
  submitQuiz_oob_skipped ⟨some poolGrade, []⟩ poolGrade [⟨0, 1⟩, ⟨9, 1⟩, ⟨1, 0⟩] ⟨9, 1⟩ rfl
    (by decide) (by decide) (by decide)

/-- Claim C4: the coarse pass skips fragments with empty trimmed text,
starts a new running segment exactly when the running segment's own elapsed
duration has reached 300 seconds (flushing the old one), otherwise appends
the trimmed text with a single space and extends the end time to the
fragment's end, and flushes the last running segment at end of input; empty
input yields empty output, and a single fragment below both thresholds
yields exactly one segment carrying its trimmed text. -/
theorem segmentTranscript_coarse_behaviour :
    segmentTranscript [] = [] ∧
    (∀ (f : RawFragment) (rest : List RawFragment) (curOpt : Option ISegment) (idx : Nat),
      fragText f = "" →
      segmentTranscriptLoop (f :: rest) curOpt idx = segmentTranscriptLoop rest curOpt idx) ∧
    (∀ (cur : ISegment) (idx : Nat), segmentTranscriptLoop [] (some cur) idx = [cur]) ∧
    (∀ (f : RawFragment) (rest : List RawFragment) (cur : ISegment) (idx : Nat),
      fragText f ≠ "" →
      segmentDuration ≤ cur.endTime - cur.startTime →
      segmentTranscriptLoop (f :: rest) (some cur) idx =
        cur ::
          segmentTranscriptLoop rest (some ⟨fragStart f, fragEnd f, fragText f, idx + 1⟩)
            (idx + 1)) ∧
    (∀ (f : RawFragment) (rest : List RawFragment) (cur : ISegment) (idx : Nat),
      fragText f ≠ "" →
      cur.endTime - cur.startTime < segmentDuration →
      segmentTranscriptLoop (f :: rest) (some cur) idx =
        segmentTranscriptLoop rest
          (some { cur with endTime := fragEnd f, text := cur.text ++ " " ++ fragText f })
          idx) ∧
    (∀ f : RawFragment,
      fragText f ≠ "" →
      fragEnd f - fragStart f < segmentDuration →
      wordCount (fragText f) < minWords →
      segmentTranscript [f] = [⟨fragStart f, fragEnd f, fragText f, 0⟩]) := by
  refine ⟨rfl, ?_, fun cur idx => rfl, ?_, ?_, ?_⟩
  · intro f rest curOpt idx ht
    simp [segmentTranscriptLoop, ht]
  · intro f rest cur idx ht hd
    simp [segmentTranscriptLoop, ht, hd]
  · intro f rest cur idx ht hd
    have hnot : ¬ segmentDuration ≤ cur.endTime - cur.startTime := by
      exact not_le.mpr hd
    simp [segmentTranscriptLoop, ht, hnot]
  · intro f ht hd hwc
    show ensureMinimumSegmentLength (segmentTranscriptLoop [f] none 0) = _
    have hcoarse : segmentTranscriptLoop [f] none 0 =
        [⟨fragStart f, fragEnd f, fragText f, 0⟩] := by
      simp [segmentTranscriptLoop, ht]
    rw [hcoarse]
    rfl

/-- Witness for claim C4 at a concrete short fragment with pre-trimmed text,
together with the empty-input case. -/
theorem segmentTranscript_coarse_behaviour_witness :
    segmentTranscript [] = [] ∧
    segmentTranscript [⟨some 2, some 7, some "hello"⟩] =
      [⟨fragStart ⟨some 2, some 7, some "hello"⟩, fragEnd ⟨some 2, some 7, some "hello"⟩,
        fragText ⟨some 2, some 7, some "hello"⟩, 0⟩] :=
  ⟨segmentTranscript_coarse_behaviour.1,
    segmentTranscript_coarse_behaviour.2.2.2.2.2 ⟨some 2, some 7, some "hello"⟩ (by decide)
      (by norm_num [fragStart, fragEnd, jsNumOr, segmentDuration]) (by decide)⟩

/-- Invariant of the coarse loop with a running segment: when the remaining
fragments are individually well-formed (defaulted end at least defaulted
start), ordered by defaulted start, and the running segment starts no later
than any of them, every emitted segment starts no earlier than the running
segment and within itself, and the emitted segments are ordered by start. -/
theorem segmentTranscriptLoop_sound (frags : List RawFragment) :
    ∀ (cur : ISegment) (idx : Nat),
      (∀ f ∈ frags, fragStart f ≤ fragEnd f) →
      frags.Pairwise (fun a b => fragStart a ≤ fragStart b) →
      cur.startTime ≤ cur.endTime →
      (∀ f ∈ frags, cur.startTime ≤ fragStart f) →
      (∀ s ∈ segmentTranscriptLoop frags (some cur) idx,
          cur.startTime ≤ s.startTime ∧ s.startTime ≤ s.endTime) ∧
      (segmentTranscriptLoop frags (some cur) idx).Pairwise
        (fun a b => a.startTime ≤ b.startTime) := by
  induction frags with
  | nil =>
    intro cur idx _ _ hcur _
    refine ⟨fun s hs => ?_, ?_⟩
    · have hseq : s = cur := by simpa [segmentTranscriptLoop] using hs
      rw [hseq]
      exact ⟨le_refl _, hcur⟩
    · simpa [segmentTranscriptLoop] using List.pairwise_singleton _ cur
  | cons f rest ih =>
    intro cur idx hwf hord hcur hle
    have hwf' : ∀ g ∈ rest, fragStart g ≤ fragEnd g :=
      fun g hg => hwf g (List.mem_cons_of_mem f hg)
    have hord' : rest.Pairwise (fun a b => fragStart a ≤ fragStart b) :=
      (List.pairwise_cons.mp hord).2
    have hfr : ∀ g ∈ rest, fragStart f ≤ fragStart g := (List.pairwise_cons.mp hord).1
    have hff : fragStart f ≤ fragEnd f := hwf f (List.mem_cons_self f rest)
    have hcf : cur.startTime ≤ fragStart f := hle f (List.mem_cons_self f rest)
    have hle' : ∀ g ∈ rest, cur.startTime ≤ fragStart g :=
      fun g hg => hle g (List.mem_cons_of_mem f hg)
    by_cases ht : fragText f = ""
    · have heq : segmentTranscriptLoop (f :: rest) (some cur) idx =
          segmentTranscriptLoop rest (some cur) idx := by
        simp [segmentTranscriptLoop, ht]
      rw [heq]
      exact ih cur idx hwf' hord' hcur hle'
    · by_cases hd : segmentDuration ≤ cur.endTime - cur.startTime
      · have heq : segmentTranscriptLoop (f :: rest) (some cur) idx =
            cur :: segmentTranscriptLoop rest
              (some ⟨fragStart f, fragEnd f, fragText f, idx + 1⟩) (idx + 1) := by
          simp [segmentTranscriptLoop, ht, hd]
        rw [heq]
        obtain ⟨ih1, ih2⟩ :=
          ih ⟨fragStart f, fragEnd f, fragText f, idx + 1⟩ (idx + 1) hwf' hord' hff hfr
        refine ⟨fun s hs => ?_, ?_⟩
        · rcases List.mem_cons.mp hs with hseq | hs
          · rw [hseq]
            exact ⟨le_refl _, hcur⟩
          · obtain ⟨h1, h2⟩ := ih1 s hs
            exact ⟨le_trans hcf h1, h2⟩
        · refine List.pairwise_cons.mpr ⟨fun s hs => ?_, ih2⟩
          exact le_trans hcf (ih1 s hs).1
      · have heq : segmentTranscriptLoop (f :: rest) (some cur) idx =
            segmentTranscriptLoop rest
              (some { cur with endTime := fragEnd f, text := cur.text ++ " " ++ fragText f })
              idx := by
          simp [segmentTranscriptLoop, ht, hd]
        rw [heq]
        exact ih { cur with endTime := fragEnd f, text := cur.text ++ " " ++ fragText f } idx
          hwf' hord' (le_trans hcf hff) hle'

/-- The coarse loop started without a running segment emits segments that are
internally well-formed and ordered by start. -/
theorem segmentTranscriptLoopNone_sound :
    ∀ (frags : List RawFragment) (idx : Nat),
      (∀ f ∈ frags, fragStart f ≤ fragEnd f) →
      frags.Pairwise (fun a b => fragStart a ≤ fragStart b) →
      (∀ s ∈ segmentTranscriptLoop frags none idx, s.startTime ≤ s.endTime) ∧
      (segmentTranscriptLoop frags none idx).Pairwise
        (fun a b => a.startTime ≤ b.startTime) := by
  intro frags
  induction frags with
  | nil =>
    intro idx _ _
    exact ⟨by simp [segmentTranscriptLoop], by simp [segmentTranscriptLoop]⟩
  | cons f rest ih =>
    intro idx hwf hord
    have hwf' : ∀ g ∈ rest, fragStart g ≤ fragEnd g :=
      fun g hg => hwf g (List.mem_cons_of_mem f hg)
    have hord' : rest.Pairwise (fun a b => fragStart a ≤ fragStart b) :=
      (List.pairwise_cons.mp hord).2
    have hfr : ∀ g ∈ rest, fragStart f ≤ fragStart g := (List.pairwise_cons.mp hord).1
    have hff : fragStart f ≤ fragEnd f := hwf f (List.mem_cons_self f rest)
    by_cases ht : fragText f = ""
    · have heq : segmentTranscriptLoop (f :: rest) none idx =
          segmentTranscriptLoop rest none idx := by
        simp [segmentTranscriptLoop, ht]
      rw [heq]
      exact ih idx hwf' hord'
    · have heq : segmentTranscriptLoop (f :: rest) none idx =
          segmentTranscriptLoop rest
            (some ⟨fragStart f, fragEnd f, fragText f, idx⟩) idx := by
        simp [segmentTranscriptLoop, ht]
      rw [heq]
      obtain ⟨h1, h2⟩ :=
        segmentTranscriptLoop_sound rest ⟨fragStart f, fragEnd f, fragText f, idx⟩ idx
          hwf' hord' hff hfr
      exact ⟨fun s hs => (h1 s hs).2, h2⟩

/-- Invariant of the minimum-length loop: a well-formed running segment
starting no later than any remaining segment, over well-formed segments
ordered by start, only emits segments whose start is at most their end. -/
theorem ensureMinLoop_sound (segs : List ISegment) :
    ∀ cur : ISegment,
      cur.startTime ≤ cur.endTime →
      (∀ s ∈ segs, cur.startTime ≤ s.startTime ∧ s.startTime ≤ s.endTime) →
      segs.Pairwise (fun a b => a.startTime ≤ b.startTime) →
      ∀ t ∈ ensureMinLoop segs (some cur), t.startTime ≤ t.endTime := by
  induction segs with
  | nil =>
    intro cur hcur _ _ t ht
    have hteq : t = cur := by simpa [ensureMinLoop] using ht
    rw [hteq]
    exact hcur
  | cons s rest ih =>
    intro cur hcur hmem hord t ht
    have hs := hmem s (List.mem_cons_self s rest)
    have hmem' : ∀ u ∈ rest, cur.startTime ≤ u.startTime ∧ u.startTime ≤ u.endTime :=
      fun u hu => hmem u (List.mem_cons_of_mem s hu)
    have hord' : rest.Pairwise (fun a b => a.startTime ≤ b.startTime) :=
      (List.pairwise_cons.mp hord).2
    have hsr : ∀ u ∈ rest, s.startTime ≤ u.startTime := (List.pairwise_cons.mp hord).1
    by_cases hwc : wordCount s.text < minWords
    · have heq : ensureMinLoop (s :: rest) (some cur) =
          ensureMinLoop rest
            (some { cur with endTime := s.endTime, text := cur.text ++ " " ++ s.text }) := by
        simp [ensureMinLoop, hwc]
      rw [heq] at ht
      refine ih { cur with endTime := s.endTime, text := cur.text ++ " " ++ s.text }
        (le_trans hs.1 hs.2) (fun u hu => ⟨(hmem' u hu).1, (hmem' u hu).2⟩) hord' t ht
    · have heq : ensureMinLoop (s :: rest) (some cur) = cur :: ensureMinLoop rest (some s) := by
        simp [ensureMinLoop, hwc]
      rw [heq] at ht
      rcases List.mem_cons.mp ht with hteq | ht'
      · rw [hteq]
        exact hcur
      · exact ih s hs.2 (fun u hu => ⟨hsr u hu, (hmem' u hu).2⟩) hord' t ht'

/-- A segment of the re-indexed output is a segment of the input with only
its `segmentIndex` changed. -/
theorem mem_reindex {l : List ISegment} {t : ISegment}
    (h : t ∈ l.mapIdx fun index s => { s with segmentIndex := index }) :
    ∃ s ∈ l, t.startTime = s.startTime ∧ t.endTime = s.endTime ∧ t.text = s.text := by
  rw [List.mapIdx_eq_enum_map] at h
  obtain ⟨⟨i, s⟩, hmem, hteq⟩ := List.mem_map.mp h
  have hsl : s ∈ l := by
    have := List.mem_map_of_mem Prod.snd hmem
    rwa [List.enum_map_snd] at this
  refine ⟨s, hsl, ?_, ?_, ?_⟩ <;> rw [← hteq] <;> rfl

/-- Amended claim C3: for fragment sequences whose (defaulted) per-fragment
end is at least the (defaulted) start and whose (defaulted) starts are
non-decreasing, every output segment of the merger has `endTime >= startTime`
and the `segmentIndex` values are the contiguous positions `0, 1, 2, ...`.
The index part holds for all inputs; the time part needs the two
well-formedness hypotheses (see the counterexample). -/
theorem segmentTranscript_invariants (frags : List RawFragment)
    (hwf : ∀ f ∈ frags, fragStart f ≤ fragEnd f)
    (hord : frags.Pairwise fun a b => fragStart a ≤ fragStart b) :
    (∀ s ∈ segmentTranscript frags, s.startTime ≤ s.endTime) ∧
    (segmentTranscript frags).map (·.segmentIndex) =
      List.range (segmentTranscript frags).length := by
  constructor
  · intro t ht
    obtain ⟨u, hu, h1, h2, _⟩ := mem_reindex ht
    rw [h1, h2]
    obtain ⟨hc1, hc2⟩ := segmentTranscriptLoopNone_sound frags 0 hwf hord
    revert hu
    cases hcl : segmentTranscriptCoarse frags with
    | nil =>
      intro hu
      simp [ensureMinLoop] at hu
    | cons c cs =>
      intro hu
      have hcc : segmentTranscriptLoop frags none 0 = c :: cs := hcl
      rw [hcc] at hc1 hc2
      have hu' : u ∈ ensureMinLoop cs (some c) := by
        simpa [ensureMinLoop] using hu
      refine ensureMinLoop_sound cs c (hc1 c (List.mem_cons_self c cs)) ?_
        (List.pairwise_cons.mp hc2).2 u hu'
      intro v hv
      exact ⟨(List.pairwise_cons.mp hc2).1 v hv, hc1 v (List.mem_cons_of_mem c hv)⟩
  · unfold segmentTranscript ensureMinimumSegmentLength
    rw [reindex_map_segmentIndex, List.length_mapIdx]

/-- Evaluation of the merger on the ill-formed fragment: it is accepted
unchanged. -/
theorem fragC3_eval : segmentTranscript [fragC3] = [⟨10, 5, "x", 0⟩] := by
  norm_num [fragC3, segmentTranscript, segmentTranscriptCoarse, segmentTranscriptLoop,
    ensureMinimumSegmentLength, ensureMinLoop, fragStart, fragEnd, fragText, jsNumOr,
    show jsTrim "x" = "x" from by decide, show "x" ≠ "" from by decide]

/-- Counterexample to claim C3 as stated: the merger accepts any segments
array, and a fragment with end 5 before start 10 yields an output segment
with `endTime < startTime`. -/
theorem segmentTranscript_end_lt_start :
    ¬ ∀ s ∈ segmentTranscript [fragC3], s.startTime ≤ s.endTime := by
  intro h
  have := h ⟨10, 5, "x", 0⟩ (by rw [fragC3_eval]; exact List.mem_singleton_self _)
  norm_num at this

/-- Witness for the amended claim C3 at a concrete ordered two-fragment
input. -/
theorem segmentTranscript_invariants_witness :
    (∀ s ∈ segmentTranscript [⟨some 0, some 5, some "a"⟩, ⟨some 5, some 9, some "b"⟩],
      s.startTime ≤ s.endTime) ∧
    (segmentTranscript [⟨some 0, some 5, some "a"⟩, ⟨some 5, some 9, some "b"⟩]).map
        (·.segmentIndex) =
      List.range
        (segmentTranscript [⟨some 0, some 5, some "a"⟩, ⟨some 5, some 9, some "b"⟩]).length :=
  segmentTranscript_invariants [⟨some 0, some 5, some "a"⟩, ⟨some 5, some 9, some "b"⟩]
    (by
      intro f hf
      rcases List.mem_cons.mp hf with hfeq | hf2
      · rw [hfeq]
        norm_num [fragStart, fragEnd, jsNumOr]
      · rw [List.mem_singleton.mp hf2]
        norm_num [fragStart, fragEnd, jsNumOr])
    (by
      refine List.pairwise_cons.mpr ⟨?_, List.pairwise_singleton _ _⟩
      intro g hg
      rw [List.mem_singleton.mp hg]
      norm_num [fragStart, jsNumOr])

end MCQ
